import Mathlib

/-!
# Verification of the brainfuck-macro execution core

A shallow embedding of the Brainfuck interpreter in
`src/brainfuck-macro/src/lib.rs`: the jump-table builder
(`find_matching_brackets`) and the execution engine (`execute`), together
with proofs of the specified properties.

Modelling conventions:
* A `u8` cell is a `Nat` kept below 256; `wrapping_add(1)` becomes
  `(v + 1) % 256` and `wrapping_sub(1)` becomes `(v + 255) % 256`.
* The `Vec<Option<usize>>` jump table is a `List (Option Nat)`; the Rust
  stack of `[` indices is a `List Nat` whose head is the top.
* The `while` loop of `execute` is split into `stepOp`, one loop iteration
  (including the step-limit check, the dispatch, and the combined effect of
  a jump followed by the unconditional `ip += 1`), and `execLoop`, which
  iterates `stepOp` on fuel.  Execution from the initial state is given
  fuel `stepLimit + 1`: every iteration that continues increments the step
  counter, and an iteration only continues when the counter is below the
  limit, so the fuel can never be exhausted; the fuel-zero branch returns
  `MaxStepsExceeded`, the same answer the guarded loop would be forced to
  give, and is unreachable from `execute`.
* Tape capacity and step limit are explicit parameters (as §6 of the spec
  requires for testability); the reference constants 30 000 and 1 000 000
  instantiate them in `executeRef`.
-/

/-- The error enum `BrainfuckError` of the Rust source. -/
inductive BrainfuckError where
  | UnmatchedOpenBracket (pos : Nat)
  | UnmatchedCloseBracket (pos : Nat)
  | PointerUnderflow
  | PointerOverflow
  | InputNotSupported
  | MaxStepsExceeded
deriving DecidableEq

/-- The maximum number of cells in the Brainfuck tape (`TAPE_SIZE`). -/
def TAPE_SIZE : Nat := 30000

/-- The maximum number of execution steps (`MAX_STEPS`). -/
def MAX_STEPS : Nat := 1000000

/-- The scanning loop of `find_matching_brackets`: one left-to-right pass,
`i` the index of the head of `rest` in the full program, `stack` the
indices of unmatched `[` (head = most recently pushed), `jt` the table
built so far.  After the scan the Rust code pops once more and reports the
popped index (the head) as an unmatched `[`. -/
def scanAux : List Char → Nat → List Nat → List (Option Nat) →
    Except BrainfuckError (List (Option Nat))
  | [], _, stack, jt =>
    match stack with
    | openPos :: _ => .error (.UnmatchedOpenBracket openPos)
    | [] => .ok jt
  | ch :: rest, i, stack, jt =>
    if ch = '[' then
      scanAux rest (i + 1) (i :: stack) jt
    else if ch = ']' then
      match stack with
      | openPos :: stack2 =>
        scanAux rest (i + 1) stack2 ((jt.set openPos (some i)).set i (some openPos))
      | [] => .error (.UnmatchedCloseBracket i)
    else
      scanAux rest (i + 1) stack jt

/-- The function `find_matching_brackets`: build the jump table or fail
with a bracket error. -/
def find_matching_brackets (code : List Char) :
    Except BrainfuckError (List (Option Nat)) :=
  scanAux code 0 [] (List.replicate code.length none)

/-- The mutable state of `execute`: the interpreter fields `tape`,
`pointer`, `output` and the local variables `ip` and `steps`. -/
structure Config where
  tape : List Nat
  pointer : Nat
  output : String
  ip : Nat
  steps : Nat
deriving DecidableEq

/-- Outcome of one iteration of the `while` loop of `execute`. -/
inductive StepResult where
  | next (c : Config)
  | halt (out : String)
  | fail (e : BrainfuckError)
deriving DecidableEq

/-- One iteration of the `while ip < chars.len()` loop of `execute`:
the loop condition, the step-limit check, `steps += 1`, the dispatch on
`chars[ip]`, and the trailing `ip += 1` (which, after a jump assigned
`ip = matching`, lands on `matching + 1`). -/
def stepOp (chars : List Char) (jt : List (Option Nat)) (cap lim : Nat)
    (c : Config) : StepResult :=
  if c.ip < chars.length then
    if c.steps ≥ lim then .fail .MaxStepsExceeded
    else
      let ch := chars.getD c.ip ' '
      if ch = '>' then
        if c.pointer ≥ cap - 1 then .fail .PointerOverflow
        else .next { c with pointer := c.pointer + 1, ip := c.ip + 1, steps := c.steps + 1 }
      else if ch = '<' then
        if c.pointer = 0 then .fail .PointerUnderflow
        else .next { c with pointer := c.pointer - 1, ip := c.ip + 1, steps := c.steps + 1 }
      else if ch = '+' then
        .next { c with tape := c.tape.set c.pointer ((c.tape.getD c.pointer 0 + 1) % 256),
                       ip := c.ip + 1, steps := c.steps + 1 }
      else if ch = '-' then
        .next { c with tape := c.tape.set c.pointer ((c.tape.getD c.pointer 0 + 255) % 256),
                       ip := c.ip + 1, steps := c.steps + 1 }
      else if ch = '.' then
        .next { c with output := c.output.push (Char.ofNat (c.tape.getD c.pointer 0)),
                       ip := c.ip + 1, steps := c.steps + 1 }
      else if ch = ',' then
        .fail .InputNotSupported
      else if ch = '[' then
        if c.tape.getD c.pointer 0 = 0 then
          match jt.getD c.ip none with
          | some m => .next { c with ip := m + 1, steps := c.steps + 1 }
          | none => .next { c with ip := c.ip + 1, steps := c.steps + 1 }
        else .next { c with ip := c.ip + 1, steps := c.steps + 1 }
      else if ch = ']' then
        if c.tape.getD c.pointer 0 ≠ 0 then
          match jt.getD c.ip none with
          | some m => .next { c with ip := m + 1, steps := c.steps + 1 }
          | none => .next { c with ip := c.ip + 1, steps := c.steps + 1 }
        else .next { c with ip := c.ip + 1, steps := c.steps + 1 }
      else
        .next { c with ip := c.ip + 1, steps := c.steps + 1 }
  else .halt c.output

/-- Iterate `stepOp` on fuel.  From `execute` the fuel is `lim + 1` and the
fuel-zero branch is unreachable (see the module comment). -/
def execLoop (chars : List Char) (jt : List (Option Nat)) (cap lim : Nat) :
    Nat → Config → Except BrainfuckError String
  | 0, _ => .error .MaxStepsExceeded
  | fuel + 1, c =>
    match stepOp chars jt cap lim c with
    | .next c2 => execLoop chars jt cap lim fuel c2
    | .halt out => .ok out
    | .fail e => .error e

/-- The state made by `BrainfuckInterpreter::new()` plus the local
variables of `execute`:
a zeroed tape of `cap` cells, pointer 0, empty output, `ip = 0`,
`steps = 0`. -/
def initConfig (cap : Nat) : Config :=
  { tape := List.replicate cap 0, pointer := 0, output := "", ip := 0, steps := 0 }

/-- The function `execute`: build the jump table, then run the dispatch
loop. -/
def execute (code : String) (cap lim : Nat) : Except BrainfuckError String := do
  let chars := code.data
  let jt ← find_matching_brackets chars
  execLoop chars jt cap lim (lim + 1) (initConfig cap)

/-- The engine at the reference constants of the Rust source. -/
def executeRef (code : String) : Except BrainfuckError String :=
  execute code TAPE_SIZE MAX_STEPS

/-- A loop-control character. -/
def isBracketChar (ch : Char) : Bool :=
  ch = '[' ∨ ch = ']'

/-- One of the eight Brainfuck operator characters; everything else is a
comment. -/
def isOperator (ch : Char) : Bool :=
  ch = '>' ∨ ch = '<' ∨ ch = '+' ∨ ch = '-' ∨ ch = '.' ∨ ch = ',' ∨ ch = '[' ∨ ch = ']'

/-! ## List helpers -/

/-- Reading the table after writing a `some` into an in-range slot. -/
theorem getD_set_some (l : List (Option Nat)) (m v p : Nat) (hm : m < l.length) :
    (l.set m (some v)).getD p none = if m = p then some v else l.getD p none := by
  rcases eq_or_ne m p with h | h
  · subst h
    simp [List.getD_eq_getElem?_getD, List.getElem?_set, hm]
  · simp [List.getD_eq_getElem?_getD, List.getElem?_set, h]

/-- The freshly allocated table is everywhere undefined. -/
theorem getD_replicate_none (n p : Nat) :
    (List.replicate n (none : Option Nat)).getD p none = none := by
  rw [List.getD_eq_getElem?_getD, List.getElem?_replicate]
  split <;> rfl

/-- Step the `drop`-link of a scan one character forward. -/
theorem drop_cons_succ {α : Type} {l : List α} {i : Nat} {a : α} {rest : List α}
    (h : l.drop i = a :: rest) : l.drop (i + 1) = rest := by
  have h2 : List.drop 1 (List.drop i l) = List.drop (i + 1) l := List.drop_drop 1 i l
  rw [← h2, h]
  rfl

/-- The character under the scan cursor. -/
theorem getElem?_of_drop_cons {α : Type} {l : List α} {i : Nat} {a : α} {rest : List α}
    (h : l.drop i = a :: rest) : l[i]? = some a := by
  have h2 := List.getElem?_drop l i 0
  rw [h] at h2
  simpa using h2.symm

/-- The character under the scan cursor, through `getD`. -/
theorem getD_of_drop_cons {l : List Char} {i : Nat} {a : Char} {rest : List Char}
    (h : l.drop i = a :: rest) : l.getD i ' ' = a := by
  rw [List.getD_eq_getElem?_getD, getElem?_of_drop_cons h]
  rfl

/-- The scan cursor is in range while characters remain. -/
theorem lt_length_of_drop_cons {α : Type} {l : List α} {i : Nat} {a : α} {rest : List α}
    (h : l.drop i = a :: rest) : i < l.length := by
  by_contra hc
  push_neg at hc
  rw [List.drop_eq_nil_of_le hc] at h
  exact List.noConfusion h

/-! ## Step lemmas for the execution engine -/

/-- A non-operator character dispatches to the default no-op arm: only the
instruction index and the step counter advance. -/
theorem stepOp_comment (chars : List Char) (jt : List (Option Nat)) (cap lim : Nat)
    (c : Config) (hip : c.ip < chars.length) (hst : c.steps < lim)
    (hch : ¬ isOperator (chars.getD c.ip ' ')) :
    stepOp chars jt cap lim c = .next { c with ip := c.ip + 1, steps := c.steps + 1 } := by
  simp only [isOperator, decide_eq_true_eq, not_or] at hch
  obtain ⟨h1, h2, h3, h4, h5, h6, h7, h8⟩ := hch
  rw [List.getD_eq_getElem chars ' ' hip] at h1 h2 h3 h4 h5 h6 h7 h8
  simp [stepOp, hip, Nat.not_le.mpr hst, h1, h2, h3, h4, h5, h6, h7, h8]

/-- C2: dispatching `[` on a zero cell, or `]` on a nonzero cell, sets the
instruction index to the jump target and the trailing increment lands one
past the matching bracket, which is therefore not re-evaluated. -/
theorem jump_lands_after_matching_bracket (chars : List Char) (jt : List (Option Nat))
    (cap lim : Nat) (c : Config) (m : Nat)
    (hip : c.ip < chars.length) (hst : c.steps < lim)
    (hbr : (chars.getD c.ip ' ' = '[' ∧ c.tape.getD c.pointer 0 = 0) ∨
           (chars.getD c.ip ' ' = ']' ∧ c.tape.getD c.pointer 0 ≠ 0))
    (hjt : jt.getD c.ip none = some m) :
    stepOp chars jt cap lim c = .next { c with ip := m + 1, steps := c.steps + 1 } := by
  rw [List.getD_eq_getElem?_getD] at hjt
  rcases hbr with ⟨hch, hcell⟩ | ⟨hch, hcell⟩ <;>
    rw [List.getD_eq_getElem chars ' ' hip] at hch <;>
    rw [List.getD_eq_getElem?_getD] at hcell <;>
    simp [stepOp, hip, Nat.not_le.mpr hst, hch, hcell, hjt]

/-- Witness for C2: on `[]` with a zero cell, the `[` at index 0 jumps to
`1 + 1 = 2`, one past its matching `]`. -/
theorem jump_lands_after_matching_bracket_witness :
    stepOp ['[', ']'] [some 1, some 0] 1 10 ⟨[0], 0, "", 0, 0⟩ =
      .next ⟨[0], 0, "", 2, 1⟩ :=
  jump_lands_after_matching_bracket ['[', ']'] [some 1, some 0] 1 10
    ⟨[0], 0, "", 0, 0⟩ 1 (by decide) (by decide)
    (Or.inl ⟨by decide, by decide⟩) (by decide)

/-- Reading a list after an in-range write, at the written slot. -/
theorem getD_set_eq {α : Type} (l : List α) (m : Nat) (v d : α) (hm : m < l.length) :
    (l.set m v).getD m d = v := by
  rw [List.getD_eq_getElem?_getD, List.getElem?_set]
  simp [hm]

/-- Shape of any continuing iteration: the pointer moves by at most one and
only under its guard, and the tape changes only by a wrapped write at the
pointer. -/
theorem stepOp_next_shape (chars : List Char) (jt : List (Option Nat)) (cap lim : Nat)
    (c c2 : Config) (hstep : stepOp chars jt cap lim c = .next c2) :
    (c2.pointer = c.pointer ∨ (c2.pointer = c.pointer + 1 ∧ c.pointer < cap - 1) ∨
      c2.pointer = c.pointer - 1) ∧
    (c2.tape = c.tape ∨
      c2.tape = c.tape.set c.pointer ((c.tape.getD c.pointer 0 + 1) % 256) ∨
      c2.tape = c.tape.set c.pointer ((c.tape.getD c.pointer 0 + 255) % 256)) := by
  by_cases hip : c.ip < chars.length
  case neg => simp [stepOp, hip] at hstep
  by_cases hlim : lim ≤ c.steps
  case pos => simp [stepOp, hip, hlim] at hstep
  by_cases h1 : chars[c.ip] = '>'
  · by_cases hg : cap - 1 ≤ c.pointer
    · simp [stepOp, hip, hlim, h1, hg] at hstep
    · simp [stepOp, hip, hlim, h1, hg] at hstep
      subst hstep
      exact ⟨Or.inr (Or.inl ⟨rfl, by omega⟩), Or.inl rfl⟩
  by_cases h2 : chars[c.ip] = '<'
  · by_cases hg : c.pointer = 0
    · simp [stepOp, hip, hlim, h1, h2, hg] at hstep
    · simp [stepOp, hip, hlim, h1, h2, hg] at hstep
      subst hstep
      exact ⟨Or.inr (Or.inr rfl), Or.inl rfl⟩
  by_cases h3 : chars[c.ip] = '+'
  · simp [stepOp, hip, hlim, h1, h2, h3] at hstep
    subst hstep
    exact ⟨Or.inl rfl, Or.inr (Or.inl (by simp [List.getD_eq_getElem?_getD]))⟩
  by_cases h4 : chars[c.ip] = '-'
  · simp [stepOp, hip, hlim, h1, h2, h3, h4] at hstep
    subst hstep
    exact ⟨Or.inl rfl, Or.inr (Or.inr (by simp [List.getD_eq_getElem?_getD]))⟩
  by_cases h5 : chars[c.ip] = '.'
  · simp [stepOp, hip, hlim, h1, h2, h3, h4, h5] at hstep
    subst hstep
    exact ⟨Or.inl rfl, Or.inl rfl⟩
  by_cases h6 : chars[c.ip] = ','
  · simp [stepOp, hip, hlim, h1, h2, h3, h4, h5, h6] at hstep
  by_cases h7 : chars[c.ip] = '['
  · by_cases hcell : c.tape[c.pointer]?.getD 0 = 0
    · rcases hj : jt[c.ip]?.getD none with _ | m <;>
        simp [stepOp, hip, hlim, h1, h2, h3, h4, h5, h6, h7, hcell, hj] at hstep <;>
        subst hstep <;> exact ⟨Or.inl rfl, Or.inl rfl⟩
    · simp [stepOp, hip, hlim, h1, h2, h3, h4, h5, h6, h7, hcell] at hstep
      subst hstep
      exact ⟨Or.inl rfl, Or.inl rfl⟩
  by_cases h8 : chars[c.ip] = ']'
  · by_cases hcell : c.tape[c.pointer]?.getD 0 = 0
    · simp [stepOp, hip, hlim, h1, h2, h3, h4, h5, h6, h7, h8, hcell] at hstep
      subst hstep
      exact ⟨Or.inl rfl, Or.inl rfl⟩
    · rcases hj : jt[c.ip]?.getD none with _ | m <;>
        simp [stepOp, hip, hlim, h1, h2, h3, h4, h5, h6, h7, h8, hcell, hj] at hstep <;>
        subst hstep <;> exact ⟨Or.inl rfl, Or.inl rfl⟩
  · simp [stepOp, hip, hlim, h1, h2, h3, h4, h5, h6, h7, h8] at hstep
    subst hstep
    exact ⟨Or.inl rfl, Or.inl rfl⟩

/-- C6: the pointer invariant `0 ≤ pointer < capacity` holds initially and
is preserved by every continuing iteration; `<` at pointer 0 fails
`PointerUnderflow` and `>` at pointer `capacity - 1` fails
`PointerOverflow`, with no wrapping or clamping. -/
theorem pointer_bounds (chars : List Char) (jt : List (Option Nat)) (cap lim : Nat)
    (c c2 : Config) (hcap : 1 ≤ cap) :
    (initConfig cap).pointer < cap ∧
    (c.pointer < cap → stepOp chars jt cap lim c = .next c2 → c2.pointer < cap) ∧
    (c.ip < chars.length → c.steps < lim → chars.getD c.ip ' ' = '<' → c.pointer = 0 →
      stepOp chars jt cap lim c = .fail .PointerUnderflow) ∧
    (c.ip < chars.length → c.steps < lim → chars.getD c.ip ' ' = '>' → c.pointer = cap - 1 →
      stepOp chars jt cap lim c = .fail .PointerOverflow) := by
  refine ⟨by simpa [initConfig] using hcap, ?_, ?_, ?_⟩
  · intro hp hstep
    rcases (stepOp_next_shape chars jt cap lim c c2 hstep).1 with h | ⟨h, hlt⟩ | h <;> omega
  · intro hip hlim hch hptr
    rw [List.getD_eq_getElem chars ' ' hip] at hch
    simp [stepOp, hip, Nat.not_le.mpr hlim, hch, hptr]
  · intro hip hlim hch hptr
    rw [List.getD_eq_getElem chars ' ' hip] at hch
    simp [stepOp, hip, Nat.not_le.mpr hlim, hch, hptr]

/-- Witness for C6: `<` on the initial configuration fails
`PointerUnderflow`. -/
theorem pointer_bounds_witness :
    stepOp ['<'] [] 1 1 (initConfig 1) = .fail .PointerUnderflow :=
  (pointer_bounds ['<'] [] 1 1 (initConfig 1) (initConfig 1) (by decide)).2.2.1
    (by decide) (by decide) (by decide) (by decide)

/-- C7: cells start below 256 and stay below 256; `+` and `-` always
continue, writing the wrapped value `(v + 1) % 256` resp. `(v + 255) % 256`;
`+` on 255 yields 0 and `-` on 0 yields 255. -/
theorem cell_arithmetic_wraps (chars : List Char) (jt : List (Option Nat)) (cap lim : Nat)
    (c c2 : Config) :
    (∀ v ∈ (initConfig cap).tape, v < 256) ∧
    ((∀ v ∈ c.tape, v < 256) → stepOp chars jt cap lim c = .next c2 →
      ∀ v ∈ c2.tape, v < 256) ∧
    (c.ip < chars.length → c.steps < lim → chars.getD c.ip ' ' = '+' →
      stepOp chars jt cap lim c =
        .next { c with tape := c.tape.set c.pointer ((c.tape.getD c.pointer 0 + 1) % 256),
                       ip := c.ip + 1, steps := c.steps + 1 }) ∧
    (c.ip < chars.length → c.steps < lim → chars.getD c.ip ' ' = '-' →
      stepOp chars jt cap lim c =
        .next { c with tape := c.tape.set c.pointer ((c.tape.getD c.pointer 0 + 255) % 256),
                       ip := c.ip + 1, steps := c.steps + 1 }) ∧
    (c.pointer < c.tape.length → c.tape.getD c.pointer 0 = 255 →
      (c.tape.set c.pointer ((c.tape.getD c.pointer 0 + 1) % 256)).getD c.pointer 0 = 0) ∧
    (c.pointer < c.tape.length → c.tape.getD c.pointer 0 = 0 →
      (c.tape.set c.pointer ((c.tape.getD c.pointer 0 + 255) % 256)).getD c.pointer 0 = 255) := by
  refine ⟨?_, ?_, ?_, ?_, ?_, ?_⟩
  · intro v hv
    rw [initConfig] at hv
    simp at hv
    omega
  · intro hall hstep v hv
    rcases (stepOp_next_shape chars jt cap lim c c2 hstep).2 with h | h | h <;> rw [h] at hv
    · exact hall v hv
    · rcases List.mem_or_eq_of_mem_set hv with h2 | h2
      · exact hall v h2
      · exact h2 ▸ Nat.mod_lt _ (by norm_num)
    · rcases List.mem_or_eq_of_mem_set hv with h2 | h2
      · exact hall v h2
      · exact h2 ▸ Nat.mod_lt _ (by norm_num)
  · intro hip hlim hch
    rw [List.getD_eq_getElem chars ' ' hip] at hch
    simp [stepOp, hip, Nat.not_le.mpr hlim, hch, List.getD_eq_getElem?_getD]
  · intro hip hlim hch
    rw [List.getD_eq_getElem chars ' ' hip] at hch
    simp [stepOp, hip, Nat.not_le.mpr hlim, hch, List.getD_eq_getElem?_getD]
  · intro hm h255
    rw [h255, getD_set_eq c.tape c.pointer _ 0 hm]
  · intro hm h0
    rw [h0, getD_set_eq c.tape c.pointer _ 0 hm]

/-- Witness for C7: `+` on a cell holding 255 wraps it to 0. -/
theorem cell_arithmetic_wraps_witness :
    stepOp ['+'] [] 1 1 ⟨[255], 0, "", 0, 0⟩ = .next ⟨[0], 0, "", 1, 1⟩ :=
  (cell_arithmetic_wraps ['+'] [] 1 1 ⟨[255], 0, "", 0, 0⟩ (initConfig 1)).2.2.1
    (by decide) (by decide) (by decide)

/-! ## Loop-level lemmas -/

/-- Unfold one continuing iteration of the loop. -/
theorem execLoop_next (chars : List Char) (jt : List (Option Nat)) (cap lim fuel : Nat)
    (c c2 : Config) (h : stepOp chars jt cap lim c = .next c2) :
    execLoop chars jt cap lim (fuel + 1) c = execLoop chars jt cap lim fuel c2 := by
  rw [execLoop, h]

/-- On the program `+[]` the configuration at the closing bracket with a
nonzero loop cell reproduces itself, so the run can only end by exhausting
the step budget. -/
theorem execLoop_stuck_plus (cap lim : Nat) :
    ∀ fuel (c : Config), c.ip = 2 → c.tape.getD c.pointer 0 ≠ 0 →
      execLoop ['+', '[', ']'] [none, some 2, some 1] cap lim fuel c =
        .error .MaxStepsExceeded := by
  intro fuel
  induction fuel with
  | zero => intro c _ _; rfl
  | succ fuel ih =>
    intro c hip hcell
    by_cases hlim : lim ≤ c.steps
    · simp [execLoop, stepOp, hip, hlim]
    · have hstep : stepOp ['+', '[', ']'] [none, some 2, some 1] cap lim c =
          .next { c with ip := 2, steps := c.steps + 1 } := by
        rw [List.getD_eq_getElem?_getD] at hcell
        simp [stepOp, hip, hlim, hcell]
      rw [execLoop_next _ _ _ _ fuel _ _ hstep]
      exact ih _ rfl hcell

/-- A scan over a program with no brackets touches neither the stack nor
the table. -/
theorem scanAux_no_brackets : ∀ (rest : List Char) (i : Nat) (jt : List (Option Nat)),
    (∀ ch ∈ rest, ch ≠ '[' ∧ ch ≠ ']') → scanAux rest i [] jt = .ok jt := by
  intro rest
  induction rest with
  | nil => intro i jt _; rfl
  | cons ch rest ih =>
    intro i jt hall
    obtain ⟨h1, h2⟩ := hall ch (List.mem_cons_self ch rest)
    rw [scanAux, if_neg h1, if_neg h2]
    exact ih (i + 1) jt fun c hc => hall c (List.mem_cons_of_mem _ hc)

/-- Running a comment-only program from a configuration whose instruction
index equals its step count marches both to the limit and fails. -/
theorem execLoop_comments (chars : List Char) (jt : List (Option Nat)) (cap lim : Nat)
    (hall : ∀ ch ∈ chars, ¬ isOperator ch) (hlen : lim < chars.length) :
    ∀ fuel k t p o, k ≤ lim →
      execLoop chars jt cap lim fuel ⟨t, p, o, k, k⟩ = .error .MaxStepsExceeded := by
  intro fuel
  induction fuel with
  | zero => intro k t p o _; rfl
  | succ fuel ih =>
    intro k t p o hk
    have hip : k < chars.length := lt_of_le_of_lt hk hlen
    by_cases hlim : lim ≤ k
    · simp [execLoop, stepOp, hip, hlim]
    · have hmem : chars.getD k ' ' ∈ chars := by
        rw [List.getD_eq_getElem chars ' ' hip]
        exact List.getElem_mem hip
      have hstep := stepOp_comment chars jt cap lim ⟨t, p, o, k, k⟩ hip
        (not_le.mp hlim) (hall _ hmem)
      rw [execLoop_next chars jt cap lim fuel _ _ hstep]
      exact ih (k + 1) t p o (by omega)

/-- C3: the run always terminates with an output or an error; the step
counter is compared with the limit before each dispatch and reaching it
yields `MaxStepsExceeded` with no partial output; the loop `+[]`, whose
body never mutates the looping cell, runs to the limit and fails. -/
theorem step_limit_guarantees_termination :
    (∀ (chars : List Char) (jt : List (Option Nat)) (cap lim fuel : Nat) (c : Config),
      c.ip < chars.length → lim ≤ c.steps →
      execLoop chars jt cap lim (fuel + 1) c = .error .MaxStepsExceeded) ∧
    (∀ (code : String) (cap lim : Nat), (∃ s, execute code cap lim = .ok s) ∨
      (∃ e, execute code cap lim = .error e)) ∧
    (∀ cap lim : Nat, 1 ≤ cap → execute "+[]" cap lim = .error .MaxStepsExceeded) := by
  refine ⟨?_, ?_, ?_⟩
  · intro chars jt cap lim fuel c hip hlim
    simp [execLoop, stepOp, hip, hlim]
  · intro code cap lim
    cases h : execute code cap lim with
    | ok s => exact Or.inl ⟨s, rfl⟩
    | error e => exact Or.inr ⟨e, rfl⟩
  · intro cap lim hcap
    obtain ⟨k, rfl⟩ : ∃ k, cap = k + 1 := ⟨cap - 1, by omega⟩
    show execLoop ['+', '[', ']'] [none, some 2, some 1] (k + 1) lim (lim + 1)
      (initConfig (k + 1)) = .error .MaxStepsExceeded
    cases lim with
    | zero => rfl
    | succ l =>
      have s1 : stepOp ['+', '[', ']'] [none, some 2, some 1] (k + 1) (l + 1)
          (initConfig (k + 1)) = .next ⟨1 :: List.replicate k 0, 0, "", 1, 1⟩ := by
        simp [stepOp, initConfig, List.replicate_succ, Nat.not_succ_le_zero]
      cases l with
      | zero =>
        rw [execLoop_next _ _ _ _ _ _ _ s1]
        rfl
      | succ m =>
        have s2 : stepOp ['+', '[', ']'] [none, some 2, some 1] (k + 1) (m + 2)
            ⟨1 :: List.replicate k 0, 0, "", 1, 1⟩ =
            .next ⟨1 :: List.replicate k 0, 0, "", 2, 2⟩ := by
          simp [stepOp, show ¬ m + 2 ≤ 1 from by omega]
        rw [execLoop_next _ _ _ _ _ _ _ s1, execLoop_next _ _ _ _ _ _ _ s2]
        exact execLoop_stuck_plus (k + 1) (m + 2) (m + 1) _ rfl (by norm_num)

/-- Witness for C3: `+[]` with capacity 1 and step limit 3 fails with
`MaxStepsExceeded`. -/
theorem step_limit_guarantees_termination_witness :
    execute "+[]" 1 3 = .error .MaxStepsExceeded :=
  step_limit_guarantees_termination.2.2 1 3 (by decide)

/-- C10: a non-operator character is dispatched to the no-op arm yet still
advances the step counter by one; a program of only non-operator characters
longer than the step limit therefore fails `MaxStepsExceeded` although
tape, pointer and output are never touched. -/
theorem comment_chars_consume_steps (chars : List Char) (jt : List (Option Nat))
    (cap lim : Nat) (c : Config) :
    (c.ip < chars.length → c.steps < lim → ¬ isOperator (chars.getD c.ip ' ') →
      stepOp chars jt cap lim c = .next { c with ip := c.ip + 1, steps := c.steps + 1 }) ∧
    (∀ code : String, (∀ ch ∈ code.data, ¬ isOperator ch) → lim < code.data.length →
      execute code cap lim = .error .MaxStepsExceeded) := by
  constructor
  · exact fun hip hlim hch => stepOp_comment chars jt cap lim c hip hlim hch
  · intro code hall hlen
    have hnb : ∀ ch ∈ code.data, ch ≠ '[' ∧ ch ≠ ']' := by
      intro ch hc
      have := hall ch hc
      simp only [isOperator, decide_eq_true_eq, not_or] at this
      exact ⟨this.2.2.2.2.2.2.1, this.2.2.2.2.2.2.2⟩
    have hjt : find_matching_brackets code.data =
        .ok (List.replicate code.data.length none) :=
      scanAux_no_brackets code.data 0 _ hnb
    show (find_matching_brackets code.data >>= fun jt =>
        execLoop code.data jt cap lim (lim + 1) (initConfig cap)) =
      Except.error BrainfuckError.MaxStepsExceeded
    rw [hjt]
    exact execLoop_comments code.data _ cap lim hall hlen (lim + 1) 0 _ 0 "" (Nat.zero_le lim)

/-- Witness for C10: a two-character comment with step limit 1 fails
`MaxStepsExceeded`. -/
theorem comment_chars_consume_steps_witness :
    execute "ab" 7 1 = .error .MaxStepsExceeded :=
  (comment_chars_consume_steps [] [] 7 1 (initConfig 7)).2 "ab" (by decide) (by decide)

/-! ## Jump-table builder: invariants of the scan -/

/-- Unfolding of one scan step, valid for any stack shape. -/
theorem scanAux_cons (ch : Char) (rest : List Char) (i : Nat) (stack : List Nat)
    (jt : List (Option Nat)) :
    scanAux (ch :: rest) i stack jt =
      if ch = '[' then scanAux rest (i + 1) (i :: stack) jt
      else if ch = ']' then
        match stack with
        | openPos :: stack2 =>
          scanAux rest (i + 1) stack2 ((jt.set openPos (some i)).set i (some openPos))
        | [] => .error (.UnmatchedCloseBracket i)
      else scanAux rest (i + 1) stack jt := by
  cases stack <;> rfl

/-- Main invariant of the bracket scan: a successful scan leaves a table
that is defined and symmetric at every bracket position.  The hypotheses
are the invariants carried left to right: the stack holds positions of
already-seen `[` in strictly decreasing order (top = most recent), every
earlier bracket position is on the stack or already in the table, the
table is symmetric, and table entries are at earlier positions off the
stack. -/
theorem scanAux_ok (code : List Char) :
    ∀ (rest : List Char) (i : Nat) (stack : List Nat) (jt jt' : List (Option Nat)),
      code.drop i = rest →
      jt.length = code.length →
      (∀ q ∈ stack, q < i ∧ code.getD q ' ' = '[') →
      List.Pairwise (· > ·) stack →
      (∀ p, p < i → isBracketChar (code.getD p ' ') → p ∈ stack ∨ (jt.getD p none).isSome) →
      (∀ p q, jt.getD p none = some q → jt.getD q none = some p) →
      (∀ p, (jt.getD p none).isSome → p < i ∧ p ∉ stack) →
      scanAux rest i stack jt = .ok jt' →
      ∀ p, p < code.length → isBracketChar (code.getD p ' ') →
        ∃ q, jt'.getD p none = some q ∧ jt'.getD q none = some p := by
  intro rest
  induction rest with
  | nil =>
    intro i stack jt jt' hdrop hlen hstk hpw hcov hsym hdom hscan p hp hbr
    cases stack with
    | cons q0 st => simp [scanAux] at hscan
    | nil =>
      have hji : jt = jt' := by simpa [scanAux] using hscan
      subst hji
      have hi : code.length ≤ i := by
        by_contra h
        push_neg at h
        rw [List.drop_eq_nil_iff] at hdrop
        exact absurd hdrop (not_le.mpr h)
      rcases hcov p (lt_of_lt_of_le hp hi) hbr with hmem | hsome
      · exact absurd hmem (List.not_mem_nil p)
      · obtain ⟨q, hq⟩ := Option.isSome_iff_exists.mp hsome
        exact ⟨q, hq, hsym p q hq⟩
  | cons ch rest ih =>
    intro i stack jt jt' hdrop hlen hstk hpw hcov hsym hdom hscan p hp hbr
    have hi : i < code.length := lt_length_of_drop_cons hdrop
    have hch : code.getD i ' ' = ch := getD_of_drop_cons hdrop
    have hdrop2 : code.drop (i + 1) = rest := drop_cons_succ hdrop
    by_cases hb1 : ch = '['
    · subst hb1
      rw [scanAux_cons, if_pos rfl] at hscan
      refine ih (i + 1) (i :: stack) jt jt' hdrop2 hlen ?_ ?_ ?_ hsym ?_ hscan p hp hbr
      · intro q hq
        rcases List.mem_cons.mp hq with rfl | hq
        · exact ⟨Nat.lt_succ_self q, hch⟩
        · exact ⟨Nat.lt_succ_of_lt (hstk q hq).1, (hstk q hq).2⟩
      · exact List.pairwise_cons.mpr ⟨fun q hq => (hstk q hq).1, hpw⟩
      · intro p2 hp2 hbr2
        rcases Nat.lt_succ_iff_lt_or_eq.mp hp2 with h | rfl
        · rcases hcov p2 h hbr2 with h2 | h2
          · exact Or.inl (List.mem_cons_of_mem _ h2)
          · exact Or.inr h2
        · exact Or.inl (List.mem_cons_self _ _)
      · intro p2 hsome
        obtain ⟨hlt, hnot⟩ := hdom p2 hsome
        refine ⟨Nat.lt_succ_of_lt hlt, fun hmem => ?_⟩
        rcases List.mem_cons.mp hmem with rfl | hmem
        · exact absurd hlt (lt_irrefl _)
        · exact hnot hmem
    · by_cases hb2 : ch = ']'
      · subst hb2
        cases stack with
        | nil =>
          rw [scanAux_cons, if_neg hb1, if_pos rfl] at hscan
          exact Except.noConfusion hscan
        | cons q0 st =>
          rw [scanAux_cons, if_neg hb1, if_pos rfl] at hscan
          obtain ⟨hq0i, hq0br⟩ := hstk q0 (List.mem_cons_self q0 st)
          have hq0n : jt.getD q0 none = none := by
            rcases h : jt.getD q0 none with _ | v
            · rfl
            · exact absurd (List.mem_cons_self q0 st) ((hdom q0 (by rw [h]; rfl)).2)
          have hin : jt.getD i none = none := by
            rcases h : jt.getD i none with _ | v
            · rfl
            · exact absurd (hdom i (by rw [h]; rfl)).1 (lt_irrefl i)
          have hq0len : q0 < jt.length := by
            rw [hlen]
            exact lt_trans hq0i hi
          have hilen : i < (jt.set q0 (some i)).length := by
            rw [List.length_set, hlen]
            exact hi
          have hget : ∀ r, ((jt.set q0 (some i)).set i (some q0)).getD r none =
              if i = r then some q0 else if q0 = r then some i else jt.getD r none := by
            intro r
            rw [getD_set_some _ i q0 r hilen, getD_set_some jt q0 i r hq0len]
          have hq0ne : q0 ≠ i := Nat.ne_of_lt hq0i
          refine ih (i + 1) st _ jt' hdrop2 (by simp [hlen]) ?_ (List.Pairwise.of_cons hpw)
            ?_ ?_ ?_ hscan p hp hbr
          · intro q hq
            exact ⟨Nat.lt_succ_of_lt (hstk q (List.mem_cons_of_mem _ hq)).1,
                   (hstk q (List.mem_cons_of_mem _ hq)).2⟩
          · intro p2 hp2 hbr2
            rcases Nat.lt_succ_iff_lt_or_eq.mp hp2 with h | rfl
            · rcases hcov p2 h hbr2 with h2 | h2
              · rcases List.mem_cons.mp h2 with rfl | h2
                · right
                  rw [hget p2, if_neg (fun he => hq0ne he.symm), if_pos rfl]
                  rfl
                · exact Or.inl h2
              · right
                rw [hget p2]
                by_cases e1 : i = p2
                · rw [if_pos e1]
                  rfl
                · by_cases e2 : q0 = p2
                  · simp [e1, e2]
                  · simpa [e1, e2] using h2
            · right
              rw [hget p2, if_pos rfl]
              rfl
          · intro p2 q2 hpq
            rw [hget p2] at hpq
            rw [hget q2]
            by_cases e1 : i = p2
            · rw [if_pos e1] at hpq
              injection hpq with h
              subst h
              rw [if_neg (fun he => hq0ne he.symm), if_pos rfl, e1]
            · rw [if_neg e1] at hpq
              by_cases e2 : q0 = p2
              · rw [if_pos e2] at hpq
                injection hpq with h
                subst h
                rw [if_pos rfl, e2]
              · rw [if_neg e2] at hpq
                have hsym2 := hsym p2 q2 hpq
                have hne1 : ¬ i = q2 := by
                  intro he
                  rw [← he, hin] at hsym2
                  exact Option.noConfusion hsym2
                have hne2 : ¬ q0 = q2 := by
                  intro he
                  rw [← he, hq0n] at hsym2
                  exact Option.noConfusion hsym2
                rw [if_neg hne1, if_neg hne2]
                exact hsym2
          · intro p2 hsome
            rw [hget p2] at hsome
            by_cases e1 : i = p2
            · subst e1
              refine ⟨Nat.lt_succ_self i, fun hmem => ?_⟩
              exact absurd (hstk i (List.mem_cons_of_mem _ hmem)).1 (lt_irrefl i)
            · by_cases e2 : q0 = p2
              · subst e2
                refine ⟨Nat.lt_succ_of_lt hq0i, fun hmem => ?_⟩
                exact absurd ((List.pairwise_cons.mp hpw).1 q0 hmem) (lt_irrefl q0)
              · rw [if_neg e1, if_neg e2] at hsome
                obtain ⟨hlt, hnst⟩ := hdom p2 hsome
                exact ⟨Nat.lt_succ_of_lt hlt, fun hmem => hnst (List.mem_cons_of_mem _ hmem)⟩
      · rw [scanAux_cons, if_neg hb1, if_neg hb2] at hscan
        refine ih (i + 1) stack jt jt' hdrop2 hlen ?_ hpw ?_ hsym ?_ hscan p hp hbr
        · exact fun q hq => ⟨Nat.lt_succ_of_lt (hstk q hq).1, (hstk q hq).2⟩
        · intro p2 hp2 hbr2
          rcases Nat.lt_succ_iff_lt_or_eq.mp hp2 with h | rfl
          · exact hcov p2 h hbr2
          · rw [hch] at hbr2
            simp [isBracketChar, hb1, hb2] at hbr2
        · exact fun p2 hsome => ⟨Nat.lt_succ_of_lt (hdom p2 hsome).1, (hdom p2 hsome).2⟩

/-- C1: for every program accepted by the builder, the jump table is an
involution on bracket positions: each `[`/`]` position is mapped and the
image maps back. -/
theorem jump_table_involution (code : List Char) (jt : List (Option Nat))
    (h : find_matching_brackets code = .ok jt) :
    ∀ p, p < code.length → isBracketChar (code.getD p ' ') →
      ∃ q, jt.getD p none = some q ∧ jt.getD q none = some p := by
  refine scanAux_ok code code 0 [] (List.replicate code.length none) jt rfl
    (List.length_replicate _ _) ?_ List.Pairwise.nil ?_ ?_ ?_ h
  · intro q hq
    exact absurd hq (List.not_mem_nil q)
  · intro p hp _
    exact absurd hp (Nat.not_lt_zero p)
  · intro p q hpq
    rw [getD_replicate_none] at hpq
    exact Option.noConfusion hpq
  · intro p hsome
    rw [getD_replicate_none] at hsome
    simp at hsome

/-- Witness for C1: on `[]` the table pairs positions 0 and 1. -/
theorem jump_table_involution_witness :
    ∃ q, [some 1, some 0].getD 0 none = some q ∧ [some 1, some 0].getD q none = some 0 :=
  jump_table_involution ['[', ']'] [some 1, some 0] rfl 0 (by decide) (by decide)

/-- C8: for every program accepted by the builder, the table has an entry
at every bracket position, so the engine's missing-entry arms at `[` and
`]` can never be taken. -/
theorem jump_table_complete (code : List Char) (jt : List (Option Nat))
    (h : find_matching_brackets code = .ok jt) :
    ∀ p, p < code.length → isBracketChar (code.getD p ' ') →
      (jt.getD p none).isSome := by
  intro p hp hbr
  obtain ⟨q, hq, _⟩ := scanAux_ok code code 0 [] (List.replicate code.length none) jt rfl
    (List.length_replicate _ _) (fun q hq => absurd hq (List.not_mem_nil q))
    List.Pairwise.nil (fun p2 hp2 _ => absurd hp2 (Nat.not_lt_zero p2))
    (fun p2 q2 hpq => by rw [getD_replicate_none] at hpq; exact Option.noConfusion hpq)
    (fun p2 hsome => by rw [getD_replicate_none] at hsome; simp at hsome)
    h p hp hbr
  exact Option.isSome_iff_exists.mpr ⟨q, hq⟩

/-- Witness for C8: on `[]` the entry at position 1 is defined. -/
theorem jump_table_complete_witness :
    (([some 1, some 0] : List (Option Nat)).getD 1 none).isSome :=
  jump_table_complete ['[', ']'] [some 1, some 0] rfl 1 (by decide) (by decide)

set_option maxRecDepth 100000 in
/-- C9: the Hello World program, executed with the reference capacity
30 000 and step limit 1 000 000, returns exactly `"Hello World!\n"`. -/
theorem hello_world_end_to_end :
    executeRef "++++++++++[>+++++++>++++++++++>+++>+<<<<-]>++.>+.+++++++..+++.>++.<<+++++++++++++++.>.+++.------.--------.>+.>." =
      Except.ok "Hello World!\n" := by
  rfl

/-! ## Unmatched brackets: which index is reported -/

/-- Spec-side characterization (from the spec's words, for comparison with
`scanAux`): the "last-in-first-out stack of indices of unmatched `[` seen
so far", computed by a total scan in which `]` pops when possible. -/
def openStackAux : List Char → Nat → List Nat → List Nat
  | [], _, stack => stack
  | ch :: rest, i, stack =>
    if ch = '[' then openStackAux rest (i + 1) (i :: stack)
    else if ch = ']' then openStackAux rest (i + 1) stack.tail
    else openStackAux rest (i + 1) stack

/-- The indices of unmatched `[` left after scanning the whole program. -/
def unmatchedOpens (code : List Char) : List Nat := openStackAux code 0 []

/-- When the scan fails with `UnmatchedOpenBracket p`, the index `p` is the
top of the final stack of unmatched `[`. -/
theorem scanAux_open_err : ∀ (rest : List Char) (i : Nat) (stack : List Nat)
    (jt : List (Option Nat)) (p : Nat),
    scanAux rest i stack jt = .error (.UnmatchedOpenBracket p) →
    ∃ st, openStackAux rest i stack = p :: st := by
  intro rest
  induction rest with
  | nil =>
    intro i stack jt p h
    cases stack with
    | nil =>
      rw [scanAux.eq_2] at h
      exact Except.noConfusion h
    | cons q st =>
      rw [scanAux.eq_1] at h
      injection h with h2
      injection h2 with h3
      exact ⟨st, by rw [openStackAux, h3]⟩
  | cons ch rest ih =>
    intro i stack jt p h
    rw [scanAux_cons] at h
    rw [openStackAux]
    by_cases hb1 : ch = '['
    · rw [if_pos hb1] at h
      rw [if_pos hb1]
      exact ih (i + 1) (i :: stack) jt p h
    · by_cases hb2 : ch = ']'
      · rw [if_neg hb1, if_pos hb2] at h
        rw [if_neg hb1, if_pos hb2]
        cases stack with
        | nil => simp at h
        | cons q st => exact ih (i + 1) st _ p h
      · rw [if_neg hb1, if_neg hb2] at h
        rw [if_neg hb1, if_neg hb2]
        exact ih (i + 1) stack jt p h

/-- The unmatched-`[` stack holds only positions of `[`, in strictly
decreasing order (most recently opened on top). -/
theorem openStackAux_inv (code : List Char) : ∀ (rest : List Char) (i : Nat)
    (stack : List Nat),
    code.drop i = rest →
    (∀ q ∈ stack, q < i ∧ code.getD q ' ' = '[') →
    List.Pairwise (· > ·) stack →
    (∀ q ∈ openStackAux rest i stack, code.getD q ' ' = '[') ∧
      List.Pairwise (· > ·) (openStackAux rest i stack) := by
  intro rest
  induction rest with
  | nil =>
    intro i stack _ hstk hpw
    exact ⟨fun q hq => (hstk q hq).2, hpw⟩
  | cons ch rest ih =>
    intro i stack hdrop hstk hpw
    have hch : code.getD i ' ' = ch := getD_of_drop_cons hdrop
    have hdrop2 : code.drop (i + 1) = rest := drop_cons_succ hdrop
    rw [openStackAux]
    by_cases hb1 : ch = '['
    · rw [if_pos hb1]
      refine ih (i + 1) (i :: stack) hdrop2 ?_ ?_
      · intro q hq
        rcases List.mem_cons.mp hq with rfl | hq
        · exact ⟨Nat.lt_succ_self q, hb1 ▸ hch⟩
        · exact ⟨Nat.lt_succ_of_lt (hstk q hq).1, (hstk q hq).2⟩
      · exact List.pairwise_cons.mpr ⟨fun q hq => (hstk q hq).1, hpw⟩
    · by_cases hb2 : ch = ']'
      · rw [if_neg hb1, if_pos hb2]
        refine ih (i + 1) stack.tail hdrop2 ?_ ?_
        · intro q hq
          have hq2 := List.mem_of_mem_tail hq
          exact ⟨Nat.lt_succ_of_lt (hstk q hq2).1, (hstk q hq2).2⟩
        · cases stack with
          | nil => exact List.Pairwise.nil
          | cons a l => exact List.Pairwise.of_cons hpw
      · rw [if_neg hb1, if_neg hb2]
        refine ih (i + 1) stack hdrop2 ?_ hpw
        exact fun q hq => ⟨Nat.lt_succ_of_lt (hstk q hq).1, (hstk q hq).2⟩

/-- C4: when the builder fails with `UnmatchedOpenBracket p`, position `p`
holds `[`, is an unmatched `[`, and is the largest — i.e. innermost, most
recently opened — of the unmatched `[` indices, not the outermost. -/
theorem unmatched_open_reports_innermost (code : List Char) (p : Nat)
    (h : find_matching_brackets code = .error (.UnmatchedOpenBracket p)) :
    code.getD p ' ' = '[' ∧ p ∈ unmatchedOpens code ∧
      ∀ q ∈ unmatchedOpens code, q ≤ p := by
  obtain ⟨st, hst⟩ := scanAux_open_err code 0 [] _ p h
  have hinv := openStackAux_inv code code 0 [] rfl
    (fun q hq => absurd hq (List.not_mem_nil q)) List.Pairwise.nil
  have hmem : p ∈ openStackAux code 0 [] := by
    rw [hst]
    exact List.mem_cons_self p st
  refine ⟨hinv.1 p hmem, hmem, ?_⟩
  intro q hq
  have hq2 : q ∈ p :: st := by
    rw [unmatchedOpens, hst] at hq
    exact hq
  rcases List.mem_cons.mp hq2 with rfl | hq3
  · exact le_refl q
  · have hpw := hinv.2
    rw [hst] at hpw
    exact le_of_lt ((List.pairwise_cons.mp hpw).1 q hq3)

/-- Witness for C4: on `[[` the reported index is 1, the inner bracket. -/
theorem unmatched_open_reports_innermost_witness :
    (['[', '['] : List Char).getD 1 ' ' = '[' ∧ 1 ∈ unmatchedOpens ['[', '['] ∧
      ∀ q ∈ unmatchedOpens ['[', '['], q ≤ 1 :=
  unmatched_open_reports_innermost ['[', '['] 1 rfl

/-- Extend a program prefix by the character under the cursor. -/
theorem take_succ_of_drop_cons {code : List Char} {i : Nat} {ch : Char} {rest : List Char}
    (h : code.drop i = ch :: rest) : code.take (i + 1) = code.take i ++ [ch] := by
  rw [List.take_succ, getElem?_of_drop_cons h]
  rfl

/-- When the scan fails with `UnmatchedCloseBracket p`, position `p` holds
`]`, the brackets before it balance exactly (the stack was empty), and it
is the first such `]`: every earlier `]` still had an open `[` available. -/
theorem scanAux_close_err (code : List Char) : ∀ (rest : List Char) (i : Nat)
    (stack : List Nat) (jt : List (Option Nat)) (p : Nat),
    code.drop i = rest →
    stack.length + (code.take i).count ']' = (code.take i).count '[' →
    (∀ j, j < i → code.getD j ' ' = ']' →
      (code.take j).count ']' < (code.take j).count '[') →
    scanAux rest i stack jt = .error (.UnmatchedCloseBracket p) →
    code.getD p ' ' = ']' ∧ (code.take p).count '[' = (code.take p).count ']' ∧
      ∀ j, j < p → code.getD j ' ' = ']' →
        (code.take j).count ']' < (code.take j).count '[' := by
  intro rest
  induction rest with
  | nil =>
    intro i stack jt p _ _ _ h
    cases stack with
    | nil =>
      rw [scanAux.eq_2] at h
      exact Except.noConfusion h
    | cons q st =>
      rw [scanAux.eq_1] at h
      simp at h
  | cons ch rest ih =>
    intro i stack jt p hdrop hcnt hthird h
    have hch : code.getD i ' ' = ch := getD_of_drop_cons hdrop
    have hdrop2 : code.drop (i + 1) = rest := drop_cons_succ hdrop
    have htake : code.take (i + 1) = code.take i ++ [ch] := take_succ_of_drop_cons hdrop
    by_cases hb1 : ch = '['
    · subst hb1
      rw [scanAux_cons, if_pos rfl] at h
      refine ih (i + 1) (i :: stack) jt p hdrop2 ?_ ?_ h
      · have e1 : (code.take (i + 1)).count ']' = (code.take i).count ']' := by
          rw [htake]
          simp [List.count_append, List.count_cons]
        have e2 : (code.take (i + 1)).count '[' = (code.take i).count '[' + 1 := by
          rw [htake]
          simp [List.count_append, List.count_cons]
        rw [e1, e2, List.length_cons]
        omega
      · intro j hj hbr
        rcases Nat.lt_succ_iff_lt_or_eq.mp hj with h2 | rfl
        · exact hthird j h2 hbr
        · rw [hch] at hbr
          exact absurd hbr (by decide)
    · by_cases hb2 : ch = ']'
      · subst hb2
        have e1 : (code.take (i + 1)).count ']' = (code.take i).count ']' + 1 := by
          rw [htake]
          simp [List.count_append, List.count_cons]
        have e2 : (code.take (i + 1)).count '[' = (code.take i).count '[' := by
          rw [htake]
          simp [List.count_append, List.count_cons]
        cases stack with
        | nil =>
          rw [scanAux_cons, if_neg hb1, if_pos rfl] at h
          have h2 : BrainfuckError.UnmatchedCloseBracket i =
              BrainfuckError.UnmatchedCloseBracket p := by
            injection h
          injection h2 with h3
          subst h3
          refine ⟨hch, by simpa using hcnt.symm, hthird⟩
        | cons q0 st =>
          rw [scanAux_cons, if_neg hb1, if_pos rfl] at h
          refine ih (i + 1) st _ p hdrop2 ?_ ?_ h
          · rw [e1, e2]
            rw [List.length_cons] at hcnt
            omega
          · intro j hj hbr
            rcases Nat.lt_succ_iff_lt_or_eq.mp hj with h2 | rfl
            · exact hthird j h2 hbr
            · rw [List.length_cons] at hcnt
              omega
      · rw [scanAux_cons, if_neg hb1, if_neg hb2] at h
        refine ih (i + 1) stack jt p hdrop2 ?_ ?_ h
        · have e1 : (code.take (i + 1)).count ']' = (code.take i).count ']' := by
            rw [htake]
            simp [List.count_append, List.count_cons, hb2]
          have e2 : (code.take (i + 1)).count '[' = (code.take i).count '[' := by
            rw [htake]
            simp [List.count_append, List.count_cons, hb1]
          rw [e1, e2]
          exact hcnt
        · intro j hj hbr
          rcases Nat.lt_succ_iff_lt_or_eq.mp hj with h2 | rfl
          · exact hthird j h2 hbr
          · rw [hch] at hbr
            exact absurd hbr hb2

/-- C5: the builder fails with `UnmatchedCloseBracket` exactly at the first
`]` scanned while the stack of unmatched `[` is empty, carrying that
zero-based index. -/
theorem unmatched_close_reports_first (code : List Char) (p : Nat)
    (h : find_matching_brackets code = .error (.UnmatchedCloseBracket p)) :
    code.getD p ' ' = ']' ∧ (code.take p).count '[' = (code.take p).count ']' ∧
      ∀ j, j < p → code.getD j ' ' = ']' →
        (code.take j).count ']' < (code.take j).count '[' :=
  scanAux_close_err code code 0 [] _ p rfl (by simp)
    (fun j hj _ => absurd hj (Nat.not_lt_zero j)) h

/-- Witness for C5: on `++]` the reported index is 2. -/
theorem unmatched_close_reports_first_witness :
    (['+', '+', ']'] : List Char).getD 2 ' ' = ']' ∧
      ((['+', '+', ']'] : List Char).take 2).count '[' =
        ((['+', '+', ']'] : List Char).take 2).count ']' ∧
      ∀ j, j < 2 → (['+', '+', ']'] : List Char).getD j ' ' = ']' →
        ((['+', '+', ']'] : List Char).take j).count ']' <
          ((['+', '+', ']'] : List Char).take j).count '[' :=
  unmatched_close_reports_first ['+', '+', ']'] 2 rfl
